import Mathlib

/-!
Verification of the akeo-slicer image-processing core (src/akeo_slicer.py).

The embedding models images as lists of pixel rows (for the slicer) and as
pixel functions on an unbounded canvas (for the merger).  Pixel values are
abstract naturals; color-mode conversion is outside the model, matching the
"mode fidelity aside" reading of the equivalence properties.  Rational
numbers stand for Python's float arithmetic where the source computes
sizes in MiB: every such computation in the modelled code is a product of
integers divided by a power of two and compared against an integer, which
float arithmetic carries out exactly in the relevant range.

Note on platform constraints: the source refers to a dictionary
`PLATFORM_SPECS` that is never defined anywhere in the file, so any task
with a truthy `platform` field raises `NameError` at the first
`platform in PLATFORM_SPECS` test.  All reachable behavior therefore has
no platform constraint, and tasks are modelled without one.
-/

/-- A pixel value (abstract). -/
abbrev Px := Nat

/-- One row of pixels. -/
abbrev Row := List Px

/-- `img.crop((0, a, w, b))` for a full-width image given as a row list:
rows `[a, b)`.  (PIL would pad when `b` exceeds the height; the slicer
only crops with validated boundaries `b ≤ height`, where no padding
occurs.) -/
def cropRows (rows : List Row) (a b : Nat) : List Row :=
  (rows.drop a).take (b - a)

/-- The slice loop of `split_image_at_points` (src line 483-491): for each
adjacent boundary pair `(seq[i], seq[i+1])` produce the crop of rows
`[seq[i], seq[i+1])`. -/
def buildSlices (rows : List Row) : List Nat → List (List Row)
  | a :: b :: rest => cropRows rows a b :: buildSlices rows (b :: rest)
  | _ => []

/-- `sorted(list(set(points)))` (src line 474): the ascending list of the
distinct offsets.  `dedup` then sort by `≤` yields exactly that list. -/
def normalizePoints (points : List Int) : List Int :=
  List.insertionSort (· ≤ ·) points.dedup

/-- The pure slicing core of `split_image_at_points` (src lines 436-501):
normalize the offsets, reject any normalized offset `≤ 0` or `≥ h`
(`raise ValueError`, src lines 474-476), otherwise build the boundary
sequence `[0] + points + [h]` and crop each adjacent pair.  Encoding and
file naming are outside the pixel model. -/
def split_image_at_points (rows : List Row) (points : List Int) :
    Except String (List (List Row)) :=
  let h : Int := rows.length
  let pts := normalizePoints points
  if pts.any (fun p => decide (p ≤ 0) || decide (h ≤ p)) then
    Except.error "분할점이 이미지 범위를 벗어났습니다"
  else
    Except.ok (buildSlices rows (0 :: (pts.map Int.toNat ++ [rows.length])))

/-- Last element of the boundary walk `a :: rest`. -/
def lastOf (a : Nat) : List Nat → Nat
  | [] => a
  | b :: rest => lastOf b rest

/-- Differences of adjacent boundaries of the walk `a :: rest`. -/
def boundaryDiffs (a : Nat) : List Nat → List Nat
  | [] => []
  | b :: rest => (b - a) :: boundaryDiffs b rest

lemma lastOf_append_singleton (l : List Nat) (a b : Nat) :
    lastOf a (l ++ [b]) = b := by
  induction l generalizing a with
  | nil => rfl
  | cons x l ih => simpa [lastOf] using ih x

lemma le_lastOf (a : Nat) (l : List Nat) (h : List.Chain (· ≤ ·) a l) :
    a ≤ lastOf a l := by
  induction l generalizing a with
  | nil => simp [lastOf]
  | cons b l ih =>
    rcases List.chain_cons.mp h with ⟨hab, hl⟩
    exact le_trans hab (ih b hl)

lemma buildSlices_length (rows : List Row) (rest : List Nat) (a : Nat) :
    (buildSlices rows (a :: rest)).length = rest.length := by
  induction rest generalizing a with
  | nil => rfl
  | cons b rest ih => simpa [buildSlices] using ih b

lemma buildSlices_join (rows : List Row) (rest : List Nat) (a : Nat)
    (hchain : List.Chain (· ≤ ·) a rest)
    (hlast : lastOf a rest ≤ rows.length) :
    (buildSlices rows (a :: rest)).flatten
      = (rows.drop a).take (lastOf a rest - a) := by
  induction rest generalizing a with
  | nil => simp [buildSlices, lastOf]
  | cons b rest ih =>
    rcases List.chain_cons.mp hchain with ⟨hab, hchain'⟩
    have hblast : b ≤ lastOf b rest := le_lastOf b rest hchain'
    have hlast' : lastOf b rest ≤ rows.length := by
      simpa [lastOf] using hlast
    have ihb := ih b hchain' hlast'
    have hdrop : rows.drop b = (rows.drop a).drop (b - a) := by
      rw [List.drop_drop]
      congr 1
      omega
    have hsum : (b - a) + (lastOf b rest - b) = lastOf b rest - a := by
      omega
    calc (buildSlices rows (a :: b :: rest)).flatten
        = cropRows rows a b ++ (buildSlices rows (b :: rest)).flatten := by
          simp [buildSlices]
      _ = (rows.drop a).take (b - a)
            ++ ((rows.drop a).drop (b - a)).take (lastOf b rest - b) := by
          rw [ihb, hdrop]; rfl
      _ = (rows.drop a).take ((b - a) + (lastOf b rest - b)) := by
          rw [List.take_add]
      _ = (rows.drop a).take (lastOf a (b :: rest) - a) := by
          rw [hsum]; rfl

lemma buildSlices_heights (rows : List Row) (rest : List Nat) (a : Nat)
    (hchain : List.Chain (· ≤ ·) a rest)
    (hlast : lastOf a rest ≤ rows.length) :
    (buildSlices rows (a :: rest)).map List.length = boundaryDiffs a rest := by
  induction rest generalizing a with
  | nil => rfl
  | cons b rest ih =>
    rcases List.chain_cons.mp hchain with ⟨hab, hchain'⟩
    have hblast : b ≤ lastOf b rest := le_lastOf b rest hchain'
    have hlast' : lastOf b rest ≤ rows.length := by
      simpa [lastOf] using hlast
    have hb_le : b ≤ rows.length := le_trans hblast hlast'
    have hcrop : (cropRows rows a b).length = b - a := by
      simp [cropRows]
      omega
    simp [buildSlices, boundaryDiffs, hcrop, ih b hchain' hlast']

lemma chain_of_sorted_bounds (l : List Nat) (a h : Nat)
    (hp : l.Pairwise (· ≤ ·)) (hb : ∀ x ∈ l, a ≤ x ∧ x ≤ h) (hah : a ≤ h) :
    List.Chain (· ≤ ·) a (l ++ [h]) := by
  induction l generalizing a with
  | nil => exact List.chain_cons.mpr ⟨hah, List.Chain.nil⟩
  | cons x l ih =>
    rcases List.pairwise_cons.mp hp with ⟨hx, hl⟩
    refine List.chain_cons.mpr ⟨(hb x (by simp)).1, ?_⟩
    exact ih x hl (fun y hy => ⟨hx y hy, (hb y (by simp [hy])).2⟩) (hb x (by simp)).2

lemma normalizePoints_eq_self (points : List Int)
    (hsort : points.Sorted (· < ·)) : normalizePoints points = points := by
  unfold normalizePoints
  rw [List.Nodup.dedup hsort.nodup]
  exact List.Sorted.insertionSort_eq
    (List.Pairwise.imp (fun h => le_of_lt h) hsort)

/-- C1: for every image of height H and every valid CutPlan of N offsets,
the slicer builds the boundary sequence `[0] + offsets + [H]` and produces
exactly N+1 slices whose heights are the differences of adjacent
boundaries, and vertically concatenating the slices in order reproduces
the original image's full pixel content exactly. -/
theorem c1_split_roundtrip (rows : List Row) (points : List Int)
    (hsort : points.Sorted (· < ·))
    (hin : ∀ p ∈ points, 0 < p ∧ p < (rows.length : Int)) :
    split_image_at_points rows points
      = Except.ok (buildSlices rows
          (0 :: (points.map Int.toNat ++ [rows.length]))) ∧
    (buildSlices rows (0 :: (points.map Int.toNat ++ [rows.length]))).length
      = points.length + 1 ∧
    (buildSlices rows (0 :: (points.map Int.toNat ++ [rows.length]))).map
        List.length
      = boundaryDiffs 0 (points.map Int.toNat ++ [rows.length]) ∧
    (buildSlices rows (0 :: (points.map Int.toNat ++ [rows.length]))).flatten
      = rows := by
  have hnorm : normalizePoints points = points :=
    normalizePoints_eq_self points hsort
  have hany : points.any
      (fun p => decide (p ≤ 0) || decide ((rows.length : Int) ≤ p)) = false := by
    rw [List.any_eq_false]
    intro p hp
    have h := hin p hp
    simp only [Bool.or_eq_true, decide_eq_true_eq, not_or]
    omega
  have hpair : (points.map Int.toNat).Pairwise (· ≤ ·) := by
    refine List.Pairwise.map Int.toNat ?_ hsort
    intro a b hab
    exact Int.toNat_le_toNat (le_of_lt hab)
  have hbounds : ∀ x ∈ points.map Int.toNat, 0 ≤ x ∧ x ≤ rows.length := by
    intro x hx
    rcases List.mem_map.mp hx with ⟨p, hp, rfl⟩
    have h2 := (hin p hp).2
    constructor
    · exact Nat.zero_le _
    · omega
  have hchain : List.Chain (· ≤ ·) 0 (points.map Int.toNat ++ [rows.length]) :=
    chain_of_sorted_bounds _ 0 rows.length hpair hbounds (Nat.zero_le _)
  have hlast : lastOf 0 (points.map Int.toNat ++ [rows.length]) = rows.length :=
    lastOf_append_singleton _ 0 rows.length
  refine ⟨?_, ?_, ?_, ?_⟩
  · unfold split_image_at_points
    simp [hnorm, hany]
  · rw [buildSlices_length]
    simp
  · exact buildSlices_heights rows _ 0 hchain (le_of_eq hlast)
  · rw [buildSlices_join rows _ 0 hchain (le_of_eq hlast), hlast]
    simp

/-- The 5000-row image of the C1 example scenario (one pixel per row,
each row distinct). -/
def imgRows5000 : List Row := (List.range 5000).map (fun y => [y])

/-- Witness for C1: an image of height 5000 split at offsets
`[1200, 2400, 3600, 4800]` yields exactly 5 slices of heights
1200, 1200, 1200, 1200, 200, and their concatenation is the image. -/
theorem c1_split_roundtrip_witness :
    boundaryDiffs 0 (([1200, 2400, 3600, 4800] : List Int).map Int.toNat
        ++ [imgRows5000.length])
      = [1200, 1200, 1200, 1200, 200] ∧
    (split_image_at_points imgRows5000 [1200, 2400, 3600, 4800]
      = Except.ok (buildSlices imgRows5000
          (0 :: (([1200, 2400, 3600, 4800] : List Int).map Int.toNat
            ++ [imgRows5000.length]))) ∧
     (buildSlices imgRows5000
        (0 :: (([1200, 2400, 3600, 4800] : List Int).map Int.toNat
          ++ [imgRows5000.length]))).length
       = ([1200, 2400, 3600, 4800] : List Int).length + 1 ∧
     (buildSlices imgRows5000
        (0 :: (([1200, 2400, 3600, 4800] : List Int).map Int.toNat
          ++ [imgRows5000.length]))).map List.length
       = boundaryDiffs 0 (([1200, 2400, 3600, 4800] : List Int).map Int.toNat
          ++ [imgRows5000.length]) ∧
     (buildSlices imgRows5000
        (0 :: (([1200, 2400, 3600, 4800] : List Int).map Int.toNat
          ++ [imgRows5000.length]))).flatten
       = imgRows5000) := by
  have hlen : imgRows5000.length = 5000 := by
    simp [imgRows5000]
  constructor
  · rw [hlen]
    decide
  · exact c1_split_roundtrip imgRows5000 [1200, 2400, 3600, 4800]
      (by decide) (by rw [hlen]; decide)

/-- C6: the slicer first normalizes the offsets (sorts, removes
duplicates) and then rejects the plan with the `ValueError` raised at
src line 476 whenever any normalized offset is `≤ 0` or `≥ H`, producing
no slices and performing no clamping. -/
theorem c6_invalid_offsets_rejected (rows : List Row) (points : List Int)
    (hbad : ∃ p ∈ normalizePoints points, p ≤ 0 ∨ (rows.length : Int) ≤ p) :
    (normalizePoints points).Sorted (· ≤ ·) ∧
    (normalizePoints points).Nodup ∧
    (∀ p, p ∈ normalizePoints points ↔ p ∈ points) ∧
    split_image_at_points rows points
      = Except.error "분할점이 이미지 범위를 벗어났습니다" := by
  unfold normalizePoints at hbad ⊢
  refine ⟨List.sorted_insertionSort _ _, ?_, ?_, ?_⟩
  · exact ((List.perm_insertionSort _ _).nodup_iff).mpr (List.nodup_dedup points)
  · intro p
    rw [(List.perm_insertionSort _ _).mem_iff, List.mem_dedup]
  · rcases hbad with ⟨p, hp, hcond⟩
    have hany : (List.insertionSort (· ≤ ·) points.dedup).any
        (fun p => decide (p ≤ 0) || decide ((rows.length : Int) ≤ p)) = true := by
      rw [List.any_eq_true]
      refine ⟨p, hp, ?_⟩
      simp only [Bool.or_eq_true, decide_eq_true_eq]
      omega
    unfold split_image_at_points normalizePoints
    simp [hany]

/-- Witness for C6: the offset list `[0, 2]` on an image of height 3
contains the out-of-range offset 0 and is rejected. -/
theorem c6_invalid_offsets_rejected_witness :
    (∃ p ∈ normalizePoints [0, 2],
        p ≤ 0 ∨ ((([[0], [1], [2]] : List Row).length : Int) ≤ p)) ∧
    split_image_at_points [[0], [1], [2]] [0, 2]
      = Except.error "분할점이 이미지 범위를 벗어났습니다" := by
  refine ⟨by decide, ?_⟩
  exact (c6_invalid_offsets_rejected [[0], [1], [2]] [0, 2] (by decide)).2.2.2

/-- How a run of `split_image_at_points` ends: success, rejection of the
cut plan (src line 476), or an exception at slice `i` (src line 493). -/
inductive SplitOutcome where
  | ok
  | invalidPlan
  | sliceError (i : Nat)
deriving DecidableEq

/-- Observable resource effect of one run of `split_image_at_points`:
how it ended and whether `img.close()` ran on the source decode buffer
before returning. -/
structure SplitRun where
  outcome : SplitOutcome
  imgClosed : Bool
deriving DecidableEq

/-- Control-flow of `split_image_at_points` (src lines 436-501) with the
per-slice encode step abstracted by `encodeOk i` (whether
`save_image_with_quality` succeeds on slice `i`).  The function body is
one `try` block whose handler (line 500) shows a message box and
returns; `img.close()` (line 495) runs only after the slice loop
completes, so any raise — a `ValueError` from plan validation or a
failure inside the loop — reaches the handler with the buffer still
open. -/
def split_run (rows : List Row) (points : List Int)
    (encodeOk : Nat → Bool) : SplitRun :=
  let h : Int := rows.length
  let pts := normalizePoints points
  if pts.any (fun p => decide (p ≤ 0) || decide (h ≤ p)) then
    ⟨SplitOutcome.invalidPlan, false⟩
  else
    let total := pts.length + 1
    match (List.range total).find? (fun i => ! encodeOk i) with
    | some i => ⟨SplitOutcome.sliceError i, false⟩
    | none => ⟨SplitOutcome.ok, true⟩

/-- Counterexample to C9 as stated: on an image of height 4 with the
valid offset 2, an encode failure at the first slice exits with the
source decode buffer still open (`imgClosed = false`). -/
theorem c9_counterexample :
    (split_run [[0], [0], [0], [0]] [2] (fun _ => false)).outcome
        = SplitOutcome.sliceError 0 ∧
    (split_run [[0], [0], [0], [0]] [2] (fun _ => false)).imgClosed = false := by
  decide

/-- C9 amended: the source decode buffer is released before returning
exactly on the success path; when an individual slice fails (or the cut
plan is rejected after decode), the operation returns with the buffer
still open. -/
theorem c9_release_only_on_success (rows : List Row) (points : List Int)
    (encodeOk : Nat → Bool) :
    (split_run rows points encodeOk).imgClosed = true
      ↔ (split_run rows points encodeOk).outcome = SplitOutcome.ok := by
  unfold split_run
  dsimp only
  split
  · simp
  · split <;> simp

/-- Dimensions and band count of a decoded (possibly downsampled) buffer;
all that the cache's size accounting reads from a PIL image. -/
structure CImg where
  width : Nat
  height : Nat
  bands : Nat
deriving DecidableEq

/-- `(img.width * img.height * len(img.getbands()) * 4) / (1024 * 1024)`
(src lines 173 and 191).  The eviction loop recomputes this from the
stored image, which has the same dimensions as the decoded one. -/
def imgSizeMB (i : CImg) : Rat :=
  (i.width * i.height * i.bands * 4 : Rat) / (1024 * 1024)

/-- `f"{path}_{max_dimension}"` cache keys, modelled by the two
components that format string combines. -/
abbrev CacheKey := String × Option Nat

/-- State of `ImageCache` (src lines 144-206): the dict's entries in
insertion order, the configured budget, and the tracked total size. -/
structure ImageCache where
  cache : List (CacheKey × CImg)
  max_size_mb : Rat
  current_size_mb : Rat
deriving DecidableEq

/-- `ImageCache(max_size_mb)` constructor (src lines 147-150). -/
def ImageCache.init (budget : Rat) : ImageCache := ⟨[], budget, 0⟩

/-- The `while` loop of `_add_to_cache` (src lines 188-193): while the
new entry would overflow the budget and the dict is nonempty, pop the
oldest-inserted entry (`next(iter(self.cache))`) and subtract its
recomputed size. -/
def evictLoop (size_mb budget : Rat) :
    List (CacheKey × CImg) → Rat → List (CacheKey × CImg) × Rat
  | [], current => ([], current)
  | old :: rest, current =>
    if current + size_mb > budget then
      evictLoop size_mb budget rest (current - imgSizeMB old.2)
    else (old :: rest, current)

/-- `_add_to_cache` (src lines 185-196): run the eviction loop, then
insert the new entry at the end of the dict and add its size. -/
def ImageCache.addToCache (st : ImageCache) (key : CacheKey) (img : CImg)
    (size_mb : Rat) : ImageCache :=
  let ev := evictLoop size_mb st.max_size_mb st.cache st.current_size_mb
  ⟨ev.1 ++ [(key, img)], st.max_size_mb, ev.2 + size_mb⟩

/-- `ImageCache.get` (src lines 152-183), with the decode step
abstracted: `img` is the buffer that loading (and optional
downsampling) produces for this key.  A hit returns a copy and leaves
the state unchanged; a miss caches the buffer only when its estimated
size is below 50 MB (src line 176). -/
def ImageCache.get (st : ImageCache) (key : CacheKey) (img : CImg) :
    ImageCache :=
  if st.cache.any (fun e => decide (e.1 = key)) then st
  else
    let img_size_mb := imgSizeMB img
    if img_size_mb < 50 then st.addToCache key img img_size_mb else st

/-- A sequence of `get()` calls, each with the buffer its decode yields. -/
def runGets (st : ImageCache) : List (CacheKey × CImg) → ImageCache
  | [] => st
  | (k, i) :: ops => runGets (st.get k i) ops

lemma imgSizeMB_nonneg (i : CImg) : 0 ≤ imgSizeMB i := by
  unfold imgSizeMB
  positivity

/-- Size-accounting invariant of a cache state: the tracked total is the
sum of the entry sizes, and every entry admitted by `get` is below the
50 MB caching cutoff. -/
def ImageCache.WF (st : ImageCache) : Prop :=
  st.current_size_mb = (st.cache.map (fun e => imgSizeMB e.2)).sum ∧
  ∀ e ∈ st.cache, imgSizeMB e.2 < 50

lemma evictLoop_spec (size_mb budget : Rat) (cache : List (CacheKey × CImg))
    (current : Rat) (hsum : current = (cache.map (fun e => imgSizeMB e.2)).sum) :
    (evictLoop size_mb budget cache current).2
        = ((evictLoop size_mb budget cache current).1.map
            (fun e => imgSizeMB e.2)).sum ∧
    (∀ e ∈ (evictLoop size_mb budget cache current).1, e ∈ cache) ∧
    ((evictLoop size_mb budget cache current).2 + size_mb ≤ budget ∨
      (evictLoop size_mb budget cache current).1 = []) := by
  induction cache generalizing current with
  | nil =>
    refine ⟨by simpa using hsum, by simp [evictLoop], Or.inr rfl⟩
  | cons old rest ih =>
    by_cases hcond : current + size_mb > budget
    · have hsum' : current - imgSizeMB old.2
          = (rest.map (fun e => imgSizeMB e.2)).sum := by
        rw [hsum]
        simp
      have h := ih (current - imgSizeMB old.2) hsum'
      simp only [evictLoop, if_pos hcond]
      exact ⟨h.1, fun e he => List.mem_cons_of_mem _ (h.2.1 e he), h.2.2⟩
    · simp only [evictLoop, if_neg hcond]
      exact ⟨hsum, fun e he => he, Or.inl (le_of_not_lt hcond)⟩

lemma get_preserves (st : ImageCache) (key : CacheKey) (img : CImg)
    (hwf : st.WF) (hle : st.current_size_mb ≤ st.max_size_mb)
    (hbudget : 50 ≤ st.max_size_mb) :
    (st.get key img).WF ∧
    (st.get key img).current_size_mb ≤ (st.get key img).max_size_mb ∧
    (st.get key img).max_size_mb = st.max_size_mb := by
  unfold ImageCache.get
  split
  · exact ⟨hwf, hle, rfl⟩
  · dsimp only
    split
    · rename_i hsmall
      have hev := evictLoop_spec (imgSizeMB img) st.max_size_mb st.cache
        st.current_size_mb hwf.1
      have hcache : (st.addToCache key img (imgSizeMB img)).cache
          = (evictLoop (imgSizeMB img) st.max_size_mb st.cache
              st.current_size_mb).1 ++ [(key, img)] := rfl
      have hcur : (st.addToCache key img (imgSizeMB img)).current_size_mb
          = (evictLoop (imgSizeMB img) st.max_size_mb st.cache
              st.current_size_mb).2 + imgSizeMB img := rfl
      have hmax : (st.addToCache key img (imgSizeMB img)).max_size_mb
          = st.max_size_mb := rfl
      refine ⟨⟨?_, ?_⟩, ?_, hmax⟩
      · rw [hcur, hcache]
        simp [hev.1]
      · intro e he
        rw [hcache] at he
        rcases List.mem_append.mp he with h | h
        · exact hwf.2 e (hev.2.1 e h)
        · simp at h
          rw [h]
          exact hsmall
      · rw [hcur, hmax]
        rcases hev.2.2 with h | h
        · exact h
        · have hz : (evictLoop (imgSizeMB img) st.max_size_mb st.cache
              st.current_size_mb).2 = 0 := by
            rw [hev.1, h]
            simp
          rw [hz, zero_add]
          exact le_trans (le_of_lt hsmall) hbudget
    · exact ⟨hwf, hle, rfl⟩

lemma runGets_preserves (ops : List (CacheKey × CImg)) (st : ImageCache)
    (hwf : st.WF) (hle : st.current_size_mb ≤ st.max_size_mb)
    (hbudget : 50 ≤ st.max_size_mb) :
    (runGets st ops).current_size_mb ≤ (runGets st ops).max_size_mb ∧
    (runGets st ops).max_size_mb = st.max_size_mb := by
  induction ops generalizing st with
  | nil => exact ⟨hle, rfl⟩
  | cons op ops ih =>
    obtain ⟨k, i⟩ := op
    have h := get_preserves st k i hwf hle hbudget
    have := ih (st.get k i) h.1 h.2.1 (h.2.2 ▸ hbudget)
    exact ⟨this.1, this.2.trans h.2.2⟩

/-- Counterexample to C4 as stated: with budget `max_size_mb = 10`, a
single `get()` decoding a 1024×1024 five-band buffer (20 MB, below the
50 MB caching cutoff) inserts into the emptied cache and leaves
`current_size_mb = 20 > 10`: the eviction loop stops when the dict is
empty, and the oversized entry is inserted anyway. -/
theorem c4_counterexample :
    (runGets (ImageCache.init 10)
        [(("a", none), ⟨1024, 1024, 5⟩)]).current_size_mb
      > (runGets (ImageCache.init 10)
          [(("a", none), ⟨1024, 1024, 5⟩)]).max_size_mb := by
  have hsize : imgSizeMB ⟨1024, 1024, 5⟩ = 20 := by
    norm_num [imgSizeMB]
  have h : runGets (ImageCache.init 10) [(("a", none), ⟨1024, 1024, 5⟩)]
      = ⟨[(("a", none), (⟨1024, 1024, 5⟩ : CImg))], 10,
         0 + imgSizeMB ⟨1024, 1024, 5⟩⟩ := by
    show ImageCache.get (ImageCache.init 10) ("a", none) ⟨1024, 1024, 5⟩ = _
    unfold ImageCache.get
    have hmiss : (ImageCache.init 10).cache.any
        (fun e => decide (e.1 = (("a", none) : CacheKey))) = false := by
      simp [ImageCache.init]
    rw [hmiss]
    dsimp only
    rw [if_neg (by simp), if_pos (by rw [hsize]; norm_num)]
    rfl
  rw [h, hsize]
  show (10 : Rat) < 0 + 20
  norm_num

/-- C4 amended: for every cache budget `B ≥ 50` (the per-entry caching
cutoff: only buffers below 50 MB are ever inserted) and every sequence
of `get()` calls from a fresh cache, the tracked total size never
exceeds `B` after any insertion settles.  For budgets below a single
entry's size the bound fails (`c4_counterexample`). -/
theorem c4_budget_invariant (B : Rat) (hB : 50 ≤ B)
    (ops : List (CacheKey × CImg)) :
    (runGets (ImageCache.init B) ops).current_size_mb ≤ B := by
  have h := runGets_preserves ops (ImageCache.init B)
    ⟨rfl, by intro e he; simp [ImageCache.init] at he⟩
    (by simp [ImageCache.init]; positivity) hB
  calc (runGets (ImageCache.init B) ops).current_size_mb
      ≤ (runGets (ImageCache.init B) ops).max_size_mb := h.1
    _ = B := h.2

/-- Witness for C4 (amended): with budget 50, three gets inserting
20 MB buffers settle with tracked size at most 50. -/
theorem c4_budget_invariant_witness :
    (50 : Rat) ≤ 50 ∧
    (runGets (ImageCache.init 50)
        [(("a", none), ⟨1024, 1024, 5⟩), (("b", none), ⟨1024, 1024, 5⟩),
         (("c", none), ⟨1024, 1024, 5⟩)]).current_size_mb ≤ 50 :=
  ⟨le_refl 50, c4_budget_invariant 50 (le_refl 50) _⟩

/-- C7: eviction follows insertion order, not access recency.  First, a
`get()` hit returns a copy and leaves the cache state (in particular the
dict order) unchanged, so intervening hits on cached entries are
irrelevant.  Second, from a cache holding A then B (in insertion order),
inserting a new entry C whose size overflows the budget evicts A — the
oldest-inserted entry — while B stays, whenever evicting A alone
restores the invariant. -/
theorem c7_eviction_insertion_order :
    (∀ (st : ImageCache) (key : CacheKey) (img : CImg),
        st.cache.any (fun e => decide (e.1 = key)) = true →
        st.get key img = st) ∧
    (∀ (kA kB kC : CacheKey) (iA iB iC : CImg) (budget cur : Rat),
        kA ≠ kC → kB ≠ kC →
        imgSizeMB iC < 50 →
        budget < cur + imgSizeMB iC →
        cur - imgSizeMB iA + imgSizeMB iC ≤ budget →
        (ImageCache.get ⟨[(kA, iA), (kB, iB)], budget, cur⟩ kC iC).cache
          = [(kB, iB), (kC, iC)]) := by
  constructor
  · intro st key img hhit
    unfold ImageCache.get
    rw [if_pos hhit]
  · intro kA kB kC iA iB iC budget cur hA hB hsmall hover hfit
    unfold ImageCache.get
    have hmiss : ([(kA, iA), (kB, iB)] : List (CacheKey × CImg)).any
        (fun e => decide (e.1 = kC)) = false := by
      simp [hA, hB]
    rw [hmiss]
    dsimp only
    rw [if_neg (by simp), if_pos hsmall]
    unfold ImageCache.addToCache
    have hev : evictLoop (imgSizeMB iC) budget [(kA, iA), (kB, iB)] cur
        = ([(kB, iB)], cur - imgSizeMB iA) := by
      unfold evictLoop
      rw [if_pos hover]
      unfold evictLoop
      rw [if_neg (not_lt.mpr hfit)]
    rw [hev]
    rfl

/-- Witness for C7: three 20 MB entries against a 50 MB budget; after A
and B are cached (40 MB), a hit on A leaves the state unchanged, and
inserting C evicts A while B survives. -/
theorem c7_eviction_insertion_order_witness :
    (ImageCache.get
        ⟨[(("a", none), ⟨1024, 1024, 5⟩), (("b", none), ⟨1024, 1024, 5⟩)],
         50, 40⟩ ("a", none) ⟨1024, 1024, 5⟩
      = ⟨[(("a", none), ⟨1024, 1024, 5⟩), (("b", none), ⟨1024, 1024, 5⟩)],
         50, 40⟩) ∧
    (ImageCache.get
        ⟨[(("a", none), ⟨1024, 1024, 5⟩), (("b", none), ⟨1024, 1024, 5⟩)],
         50, 40⟩ ("c", none) ⟨1024, 1024, 5⟩).cache
      = [(("b", none), ⟨1024, 1024, 5⟩), (("c", none), ⟨1024, 1024, 5⟩)] := by
  constructor
  · exact c7_eviction_insertion_order.1 _ ("a", none) ⟨1024, 1024, 5⟩ (by decide)
  · refine c7_eviction_insertion_order.2 ("a", none) ("b", none) ("c", none)
      ⟨1024, 1024, 5⟩ ⟨1024, 1024, 5⟩ ⟨1024, 1024, 5⟩ 50 40
      (by decide) (by decide) ?_ ?_ ?_ <;>
    · norm_num [imgSizeMB]

/-- The `quality` argument of `save_image_with_quality`: one of the four
policy strings (Lossless is the Korean `무손실`) or an explicit integer
(`isinstance(quality, int)`, src line 329). -/
inductive PyQuality where
  | str (s : String)
  | int (n : Int)

/-- JPEG save parameters chosen on the JPEG-family path: the `quality`
value and the optional `subsampling` entry (0 = subsampling disabled). -/
structure JpegSaveOpts where
  quality : Int
  subsampling : Option Nat
deriving DecidableEq

/-- The `quality_map` dict of `save_image_with_quality`
(src lines 322-327), including the `.get(quality, quality_map['Medium'])`
default for unknown strings (src line 332). -/
def quality_map (s : String) : JpegSaveOpts :=
  if s = "무손실" then ⟨100, some 0⟩
  else if s = "High" then ⟨95, some 0⟩
  else if s = "Medium" then ⟨85, none⟩
  else if s = "Low" then ⟨70, none⟩
  else ⟨85, none⟩

/-- Parameter selection on the JPEG-family encode path
(src lines 329-332): an integer quality is used as given with no
subsampling entry; a policy string goes through `quality_map`. -/
def jpegOpts : PyQuality → JpegSaveOpts
  | .int n => ⟨n, none⟩
  | .str s => quality_map s

/-- C8: the JPEG-family encode path maps Lossless (`무손실`) to quality
100 with subsampling disabled, High to 95 with subsampling disabled,
Medium to 85, Low to 70, and uses an explicit numeric quality as
given. -/
theorem c8_quality_mapping :
    jpegOpts (.str "무손실") = ⟨100, some 0⟩ ∧
    jpegOpts (.str "High") = ⟨95, some 0⟩ ∧
    jpegOpts (.str "Medium") = ⟨85, none⟩ ∧
    jpegOpts (.str "Low") = ⟨70, none⟩ ∧
    ∀ n : Int, jpegOpts (.int n) = ⟨n, none⟩ := by
  refine ⟨by decide, by decide, by decide, by decide, fun n => rfl⟩

/-- A decoded source image for the merger: dimensions (what
`get_image_info` reads) plus pixel content (what decoding yields). -/
structure PImage where
  width : Nat
  height : Nat
  pix : Nat → Nat → Px

/-- A composite buffer, as the pixel value found at each coordinate. -/
abbrev Canvas := Nat → Nat → Px

/-- `merged.paste(img, (x0, y0))` (src line 649). -/
def pasteAt (c : Canvas) (img : PImage) (x0 y0 : Nat) : Canvas :=
  fun x y =>
    if x0 ≤ x ∧ x < x0 + img.width ∧ y0 ≤ y ∧ y < y0 + img.height then
      img.pix (x - x0) (y - y0)
    else c x y

/-- `MergeTask` (src lines 67-73) restricted to the fields the pixel
model reads; `platform` is omitted per the file header, and
`output_path`/`quality` only affect the encode step. -/
structure MTask where
  files : List PImage
  save_as_png : Bool

/-- Background fill of the composite (src line 590): transparent for PNG
mode, white for JPEG mode, encoded as two distinct abstract pixels. -/
def bgPx (save_as_png : Bool) : Px := if save_as_png then 0 else 1

/-- `PIL_MAX_PIXELS = int(2**31 - 1)` (src line 29). -/
def PIL_MAX_PIXELS : Nat := 2 ^ 31 - 1

/-- The cooperative cancellation flag (`threading.Event`): queries are
numbered by a running clock, the flag is unset for the first `setAt`
queries and set from query `setAt` on (an Event, once set, stays set). -/
structure CancelEvent where
  setAt : Nat

/-- `cancel_event and cancel_event.is_set()` at query clock `t`. -/
def isSet : Option CancelEvent → Nat → Bool
  | none, _ => false
  | some ev, t => decide (ev.setAt ≤ t)

/-- Loop state of the descriptor pass of `merge_images_advanced`. -/
structure Phase1State where
  total_height : Nat
  max_width : Nat
  t : Nat
  i : Nat
  progress : List Rat

/-- Phase 1 of `merge_images_advanced` (src lines 549-562): per file,
query the cancellation flag (returning on cancel, src line 551),
accumulate the total height and maximum width from the descriptor, and
report `i / len(files) * 20`.  Returns the final state and whether
cancellation was observed. -/
def phase1 (cancel : Option CancelEvent) (n : Nat) :
    List PImage → Phase1State → Phase1State × Bool
  | [], st => (st, false)
  | img :: rest, st =>
    if isSet cancel st.t then (st, true)
    else phase1 cancel n rest
      { total_height := st.total_height + img.height,
        max_width := max st.max_width img.width,
        t := st.t + 1,
        i := st.i + 1,
        progress := st.progress ++ [(st.i : Rat) / (n : Rat) * 20] }

/-- Loop state of the compositing pass of `merge_images_advanced`. -/
structure Phase2State where
  canvas : Canvas
  y_offset : Nat
  t : Nat
  i : Nat
  progress : List Rat

/-- Phase 2 of `merge_images_advanced` (src lines 601-661): per file,
query the cancellation flag (on cancel the composite is closed and the
function returns without writing, src lines 603-606), paste the decoded
image at `((max_width - width) // 2, y_offset)` (src lines 648-650),
advance the running offset by its height, and report
`20 + (i+1) / len(files) * 70`. -/
def phase2 (cancel : Option CancelEvent) (n maxW : Nat) :
    List PImage → Phase2State → Phase2State × Bool
  | [], st => (st, false)
  | img :: rest, st =>
    if isSet cancel st.t then (st, true)
    else phase2 cancel n maxW rest
      { canvas := pasteAt st.canvas img ((maxW - img.width) / 2) st.y_offset,
        y_offset := st.y_offset + img.height,
        t := st.t + 1,
        i := st.i + 1,
        progress := st.progress ++ [20 + ((st.i : Rat) + 1) / (n : Rat) * 70] }

/-- One spilled chunk record of `_merge_images_streaming`
(src line 705): the chunk's width, height, target vertical offset in the
composite, and its pixel content read back from temporary storage. -/
structure ChunkRec where
  width : Nat
  height : Nat
  ypos : Nat
  pix : Nat → Nat → Px

/-- The inner chunk loop for one file (src lines 698-707):
`for y in range(0, img_height, chunk_height)` with `chunk_height = 1000`
crops rows `[y, min(y + 1000, h))` at full width and records the chunk
tagged with target offset `y_offset + y`. -/
def chunkFileFrom (img : PImage) (y_offset : Nat) (y : Nat) : List ChunkRec :=
  if h : y < img.height then
    { width := img.width,
      height := min (y + 1000) img.height - y,
      ypos := y_offset + y,
      pix := fun px py => img.pix px (py + y) }
      :: chunkFileFrom img y_offset (y + 1000)
  else []
termination_by img.height - y
decreasing_by omega

/-- Loop state of the chunking/spilling pass. -/
structure ChunkPhaseState where
  temp_files : List ChunkRec
  y_offset : Nat
  t : Nat
  i : Nat
  progress : List Rat

/-- The chunking/spilling pass of `_merge_images_streaming`
(src lines 690-712): per file, query the cancellation flag (on cancel
the function returns and the `finally` block deletes the temp files,
src lines 691-692), spill the file's row chunks, advance the offset by
the file's height, and report `20 + (i+1) / len(files) * 60`. -/
def chunkPhase (cancel : Option CancelEvent) (n : Nat) :
    List PImage → ChunkPhaseState → ChunkPhaseState × Bool
  | [], st => (st, false)
  | img :: rest, st =>
    if isSet cancel st.t then (st, true)
    else chunkPhase cancel n rest
      { temp_files := st.temp_files ++ chunkFileFrom img st.y_offset 0,
        y_offset := st.y_offset + img.height,
        t := st.t + 1,
        i := st.i + 1,
        progress := st.progress ++ [20 + ((st.i : Rat) + 1) / (n : Rat) * 60] }

/-- `final_img.paste(chunk, (x_offset, y_pos))` (src lines 722-724). -/
def pasteChunk (c : Canvas) (ch : ChunkRec) (x0 : Nat) : Canvas :=
  fun x y =>
    if x0 ≤ x ∧ x < x0 + ch.width ∧ ch.ypos ≤ y ∧ y < ch.ypos + ch.height then
      ch.pix (x - x0) (y - ch.ypos)
    else c x y

/-- The reassembly loop of `_merge_images_streaming` (src lines 718-724):
for each spilled chunk, query the cancellation flag — on cancel the loop
merely `break`s — otherwise paste the chunk at
`((max_width - width) // 2, y_pos)`.  Returns the composite (partial if
the loop broke) and the advanced query clock. -/
def reassemble (cancel : Option CancelEvent) (maxW : Nat) :
    List ChunkRec → Canvas → Nat → Canvas × Nat
  | [], c, t => (c, t)
  | ch :: rest, c, t =>
    if isSet cancel t then (c, t)
    else reassemble cancel maxW rest
      (pasteChunk c ch ((maxW - ch.width) / 2)) (t + 1)

/-- Observable outcome of a merge run: the saved composite (dimensions
and pixel content of the buffer handed to `save_image_with_quality`),
or `none` when the run returns without writing; the sequence of
progress-callback values; and the raised error, if any. -/
structure MergeOutcome where
  written : Option (Nat × Nat × Canvas)
  progress : List Rat
  error : Option String

/-- `_merge_images_streaming` (src lines 674-741), entered from
`merge_images_advanced` with the phase-1 totals and the query clock
`t0`.  Cancellation during the chunking pass returns without writing;
cancellation during reassembly only breaks out of the paste loop, after
which the composite is saved regardless (src lines 718-729). -/
def merge_images_streaming (task : MTask) (maxW totalH : Nat)
    (cancel : Option CancelEvent) (t0 : Nat) (prog0 : List Rat) :
    MergeOutcome :=
  let cp := chunkPhase cancel task.files.length task.files ⟨[], 0, t0, 0, prog0⟩
  if cp.2 then ⟨none, cp.1.progress, none⟩
  else
    ⟨some (maxW, totalH,
        (reassemble cancel maxW cp.1.temp_files
          (fun _ _ => bgPx task.save_as_png) cp.1.t).1),
      cp.1.progress ++ [100], none⟩

/-- `merge_images_advanced` (src lines 539-672) for a task with no
platform constraint: return immediately on an empty file list
(src lines 541-542); run the descriptor pass; fail when the composite
would exceed `PIL_MAX_PIXELS` (src lines 565-567); hand off to the
streaming path when the estimated RGBA footprint
`total_pixels * 4 / (1024*1024)` exceeds the streaming threshold —
hard-coded 1000 at src line 573 and taken as the parameter
`threshold_mb` here so that forcing it is expressible; otherwise
composite in memory and save. -/
def merge_images_advanced (task : MTask) (cancel : Option CancelEvent)
    (threshold_mb : Rat) : MergeOutcome :=
  if task.files.isEmpty then ⟨none, [], none⟩
  else
    let p1 := phase1 cancel task.files.length task.files ⟨0, 0, 0, 0, []⟩
    if p1.2 then ⟨none, p1.1.progress, none⟩
    else if p1.1.max_width * p1.1.total_height > PIL_MAX_PIXELS then
      ⟨none, p1.1.progress, some "이미지 크기 초과"⟩
    else if ((p1.1.max_width * p1.1.total_height * 4 : Nat) : Rat) / (1024 * 1024)
        > threshold_mb then
      merge_images_streaming task p1.1.max_width p1.1.total_height cancel
        p1.1.t p1.1.progress
    else
      let p2 := phase2 cancel task.files.length p1.1.max_width task.files
        ⟨fun _ _ => bgPx task.save_as_png, 0, p1.1.t, 0, p1.1.progress⟩
      if p2.2 then ⟨none, p2.1.progress, none⟩
      else ⟨some (p1.1.max_width, p1.1.total_height, p2.1.canvas),
            p2.1.progress ++ [100], none⟩

/-- `max_width` accumulated by phase 1 over the whole list (src line 559). -/
def maxWidth (files : List PImage) : Nat :=
  files.foldl (fun m f => max m f.width) 0

/-- `total_height` accumulated by phase 1 over the whole list (src line 558). -/
def heightSum (files : List PImage) : Nat :=
  (files.map (fun f => f.height)).sum

/-- C10: a merge task whose file list is empty returns immediately: no
output is written, the progress callback is never invoked, and no error
is raised (src lines 541-542). -/
theorem c10_empty_merge (task : MTask) (cancel : Option CancelEvent)
    (threshold_mb : Rat) (h : task.files = []) :
    merge_images_advanced task cancel threshold_mb
      = ⟨none, [], none⟩ := by
  unfold merge_images_advanced
  rw [if_pos (by rw [h]; rfl)]

/-- Witness for C10 at a concrete empty task. -/
theorem c10_empty_merge_witness :
    (MTask.mk [] false).files = [] ∧
    merge_images_advanced ⟨[], false⟩ none 1000
      = ⟨none, [], none⟩ :=
  ⟨rfl, c10_empty_merge ⟨[], false⟩ none 1000 rfl⟩

lemma phase1_none_snd (n : Nat) (files : List PImage) :
    ∀ st : Phase1State, (phase1 none n files st).2 = false := by
  induction files with
  | nil => intro st; rfl
  | cons img rest ih => intro st; exact ih _

lemma phase1_none_totals (n : Nat) (files : List PImage) :
    ∀ st : Phase1State,
    (phase1 none n files st).1.total_height
      = st.total_height + heightSum files ∧
    (phase1 none n files st).1.max_width
      = files.foldl (fun m f => max m f.width) st.max_width ∧
    (phase1 none n files st).1.t = st.t + files.length := by
  induction files with
  | nil =>
    intro st
    exact ⟨by simp [phase1, heightSum], rfl, rfl⟩
  | cons img rest ih =>
    intro st
    have heq : phase1 none n (img :: rest) st
        = phase1 none n rest
          { total_height := st.total_height + img.height,
            max_width := max st.max_width img.width,
            t := st.t + 1, i := st.i + 1,
            progress := st.progress ++ [(st.i : Rat) / (n : Rat) * 20] } := rfl
    rw [heq]
    obtain ⟨h1, h2, h3⟩ := ih _
    refine ⟨?_, ?_, ?_⟩
    · rw [h1]
      simp only [heightSum, List.map_cons, List.sum_cons]
      omega
    · rw [List.foldl_cons]
      exact h2
    · rw [h3]
      simp only [List.length_cons]
      omega

/-- Effect of the phase-2 loop with no cancellation: paste each file
centered at the running vertical offset, in list order. -/
def pasteImages (maxW : Nat) : List PImage → Canvas → Nat → Canvas
  | [], c, _ => c
  | img :: rest, c, y =>
      pasteImages maxW rest (pasteAt c img ((maxW - img.width) / 2) y)
        (y + img.height)

lemma phase2_none (n maxW : Nat) (files : List PImage) :
    ∀ st : Phase2State,
    (phase2 none n maxW files st).2 = false ∧
    (phase2 none n maxW files st).1.canvas
      = pasteImages maxW files st.canvas st.y_offset := by
  induction files with
  | nil => intro st; exact ⟨rfl, rfl⟩
  | cons img rest ih =>
    intro st
    have heq : phase2 none n maxW (img :: rest) st
        = phase2 none n maxW rest
          { canvas := pasteAt st.canvas img ((maxW - img.width) / 2)
              st.y_offset,
            y_offset := st.y_offset + img.height,
            t := st.t + 1, i := st.i + 1,
            progress := st.progress
              ++ [20 + ((st.i : Rat) + 1) / (n : Rat) * 70] } := rfl
    rw [heq]
    exact ih _

/-- All chunk records spilled for a file list starting at a vertical
offset, in spill order. -/
def chunksAll : List PImage → Nat → List ChunkRec
  | [], _ => []
  | img :: rest, y => chunkFileFrom img y 0 ++ chunksAll rest (y + img.height)

lemma chunkPhase_none (n : Nat) (files : List PImage) :
    ∀ st : ChunkPhaseState,
    (chunkPhase none n files st).2 = false ∧
    (chunkPhase none n files st).1.temp_files
      = st.temp_files ++ chunksAll files st.y_offset ∧
    (chunkPhase none n files st).1.t = st.t + files.length := by
  induction files with
  | nil => intro st; exact ⟨rfl, by simp [chunkPhase, chunksAll], rfl⟩
  | cons img rest ih =>
    intro st
    have heq : chunkPhase none n (img :: rest) st
        = chunkPhase none n rest
          { temp_files := st.temp_files ++ chunkFileFrom img st.y_offset 0,
            y_offset := st.y_offset + img.height,
            t := st.t + 1, i := st.i + 1,
            progress := st.progress
              ++ [20 + ((st.i : Rat) + 1) / (n : Rat) * 60] } := rfl
    rw [heq]
    obtain ⟨h1, h2, h3⟩ := ih _
    refine ⟨h1, ?_, ?_⟩
    · rw [h2]
      simp [chunksAll, List.append_assoc]
    · rw [h3]
      simp only [List.length_cons]
      omega

/-- Effect of the reassembly loop with no cancellation: paste each
spilled chunk at its recorded offset, in spill order. -/
def pasteChunks (maxW : Nat) : List ChunkRec → Canvas → Canvas
  | [], c => c
  | ch :: rest, c =>
      pasteChunks maxW rest (pasteChunk c ch ((maxW - ch.width) / 2))

lemma reassemble_none (maxW : Nat) (chunks : List ChunkRec) :
    ∀ (c : Canvas) (t : Nat),
    (reassemble none maxW chunks c t).1 = pasteChunks maxW chunks c := by
  induction chunks with
  | nil => intro c t; rfl
  | cons ch rest ih => intro c t; exact ih _ _

lemma pasteChunks_append (maxW : Nat) (l1 l2 : List ChunkRec) :
    ∀ c : Canvas, pasteChunks maxW (l1 ++ l2) c
      = pasteChunks maxW l2 (pasteChunks maxW l1 c) := by
  induction l1 with
  | nil => intro c; rfl
  | cons ch rest ih => intro c; exact ih _

lemma pasteChunks_chunkFileFrom (img : PImage) (maxW y0 : Nat) :
    ∀ (k s : Nat), img.height - s ≤ k → ∀ (c : Canvas) (x y : Nat),
    pasteChunks maxW (chunkFileFrom img y0 s) c x y
      = if (maxW - img.width) / 2 ≤ x
            ∧ x < (maxW - img.width) / 2 + img.width
            ∧ y0 + s ≤ y ∧ y < y0 + img.height then
          img.pix (x - (maxW - img.width) / 2) (y - y0)
        else c x y := by
  intro k
  induction k with
  | zero =>
    intro s hs c x y
    have hge : ¬ s < img.height := by omega
    unfold chunkFileFrom
    rw [dif_neg hge, if_neg (by omega)]
    rfl
  | succ k ih =>
    intro s hs c x y
    by_cases hlt : s < img.height
    · unfold chunkFileFrom
      rw [dif_pos hlt]
      simp only [pasteChunks]
      rw [ih (s + 1000) (by omega)]
      simp only [pasteChunk]
      split_ifs <;>
        first
          | rfl
          | (exfalso; omega)
          | (congr 1; omega)
    · unfold chunkFileFrom
      rw [dif_neg hlt, if_neg (by omega)]
      rfl

lemma pasteImages_congr (maxW : Nat) (files : List PImage) :
    ∀ (c1 c2 : Canvas) (y0 : Nat), (∀ x y, c1 x y = c2 x y) →
    ∀ x y, pasteImages maxW files c1 y0 x y
      = pasteImages maxW files c2 y0 x y := by
  induction files with
  | nil => intro c1 c2 y0 h x y; exact h x y
  | cons img rest ih =>
    intro c1 c2 y0 h x y
    refine ih _ _ _ ?_ x y
    intro x' y'
    simp only [pasteAt]
    split_ifs
    · rfl
    · exact h x' y'

lemma pasteChunks_chunksAll (maxW : Nat) (files : List PImage) :
    ∀ (y0 : Nat) (c : Canvas) (x y : Nat),
    pasteChunks maxW (chunksAll files y0) c x y
      = pasteImages maxW files c y0 x y := by
  induction files with
  | nil => intro y0 c x y; rfl
  | cons img rest ih =>
    intro y0 c x y
    have hch : chunksAll (img :: rest) y0
        = chunkFileFrom img y0 0 ++ chunksAll rest (y0 + img.height) := rfl
    rw [hch, pasteChunks_append, ih (y0 + img.height) _ x y]
    show _ = pasteImages maxW rest
        (pasteAt c img ((maxW - img.width) / 2) y0) (y0 + img.height) x y
    refine pasteImages_congr maxW rest _ _ _ ?_ x y
    intro x' y'
    rw [pasteChunks_chunkFileFrom img maxW y0 img.height 0 (by omega)]
    simp only [pasteAt, Nat.add_zero]

lemma pasteImages_below (maxW : Nat) (files : List PImage) :
    ∀ (c : Canvas) (y0 x y : Nat), y < y0 →
    pasteImages maxW files c y0 x y = c x y := by
  induction files with
  | nil => intro c y0 x y h; rfl
  | cons img rest ih =>
    intro c y0 x y h
    show pasteImages maxW rest (pasteAt c img ((maxW - img.width) / 2) y0)
        (y0 + img.height) x y = c x y
    rw [ih _ _ x y (by omega)]
    simp only [pasteAt]
    rw [if_neg (by omega)]

lemma pasteImages_pixel (maxW : Nat) :
    ∀ (pre : List PImage) (f : PImage) (post : List PImage) (c : Canvas)
      (y0 dx dy : Nat), dx < f.width → dy < f.height →
    pasteImages maxW (pre ++ f :: post) c y0
        ((maxW - f.width) / 2 + dx) (y0 + heightSum pre + dy)
      = f.pix dx dy := by
  intro pre
  induction pre with
  | nil =>
    intro f post c y0 dx dy hdx hdy
    simp only [List.nil_append,
      show heightSum ([] : List PImage) = 0 from rfl, Nat.add_zero]
    show pasteImages maxW post (pasteAt c f ((maxW - f.width) / 2) y0)
        (y0 + f.height) _ _ = _
    rw [pasteImages_below maxW post _ _ _ _ (by omega)]
    simp only [pasteAt]
    rw [if_pos (by omega)]
    congr 1 <;> omega
  | cons g pre ih =>
    intro f post c y0 dx dy hdx hdy
    have hcoord : y0 + heightSum (g :: pre) + dy
        = y0 + g.height + heightSum pre + dy := by
      simp only [heightSum, List.map_cons, List.sum_cons]
      omega
    rw [List.cons_append, hcoord]
    show pasteImages maxW (pre ++ f :: post)
        (pasteAt c g ((maxW - g.width) / 2) y0) (y0 + g.height) _ _ = _
    exact ih f post _ (y0 + g.height) dx dy hdx hdy

lemma isEmpty_false_of_ne_nil {files : List PImage} (h : files ≠ []) :
    files.isEmpty = false := by
  cases hf : files with
  | nil => exact absurd hf h
  | cons a l => rfl

lemma merge_none_inmemory_written (task : MTask) (threshold_mb : Rat)
    (hne : task.files ≠ [])
    (hpl : ¬ maxWidth task.files * heightSum task.files > PIL_MAX_PIXELS)
    (hth : ¬ (((maxWidth task.files * heightSum task.files * 4 : Nat) : Rat)
        / (1024 * 1024) > threshold_mb)) :
    (merge_images_advanced task none threshold_mb).written
      = some (maxWidth task.files, heightSum task.files,
          pasteImages (maxWidth task.files) task.files
            (fun _ _ => bgPx task.save_as_png) 0) := by
  obtain ⟨h1th, h1mw, h1t⟩ :=
    phase1_none_totals task.files.length task.files ⟨0, 0, 0, 0, []⟩
  rw [show (0 : Nat) + heightSum task.files = heightSum task.files
    from Nat.zero_add _] at h1th
  have h1mw' : (phase1 none task.files.length task.files
      ⟨0, 0, 0, 0, []⟩).1.max_width = maxWidth task.files := h1mw
  unfold merge_images_advanced
  rw [isEmpty_false_of_ne_nil hne]
  rw [if_neg (by simp)]
  dsimp only
  rw [phase1_none_snd task.files.length task.files ⟨0, 0, 0, 0, []⟩]
  rw [if_neg (by simp)]
  rw [h1mw', h1th]
  rw [if_neg hpl, if_neg hth]
  rw [(phase2_none task.files.length (maxWidth task.files) task.files _).1]
  rw [if_neg (by simp)]
  simp only [MergeOutcome.mk.injEq]
  rw [(phase2_none task.files.length (maxWidth task.files) task.files _).2]

lemma merge_none_streaming_written (task : MTask) (threshold_mb : Rat)
    (hne : task.files ≠ [])
    (hpl : ¬ maxWidth task.files * heightSum task.files > PIL_MAX_PIXELS)
    (hth : ((maxWidth task.files * heightSum task.files * 4 : Nat) : Rat)
        / (1024 * 1024) > threshold_mb) :
    (merge_images_advanced task none threshold_mb).written
      = some (maxWidth task.files, heightSum task.files,
          pasteChunks (maxWidth task.files) (chunksAll task.files 0)
            (fun _ _ => bgPx task.save_as_png)) := by
  obtain ⟨h1th, h1mw, h1t⟩ :=
    phase1_none_totals task.files.length task.files ⟨0, 0, 0, 0, []⟩
  rw [show (0 : Nat) + heightSum task.files = heightSum task.files
    from Nat.zero_add _] at h1th
  have h1mw' : (phase1 none task.files.length task.files
      ⟨0, 0, 0, 0, []⟩).1.max_width = maxWidth task.files := h1mw
  unfold merge_images_advanced
  rw [isEmpty_false_of_ne_nil hne]
  rw [if_neg (by simp)]
  dsimp only
  rw [phase1_none_snd task.files.length task.files ⟨0, 0, 0, 0, []⟩]
  rw [if_neg (by simp)]
  rw [h1mw', h1th]
  rw [if_neg hpl, if_pos hth]
  unfold merge_images_streaming
  obtain ⟨hc2, hctemp, hct⟩ :=
    chunkPhase_none task.files.length task.files
      ⟨[], 0, (phase1 none task.files.length task.files
        ⟨0, 0, 0, 0, []⟩).1.t, 0,
       (phase1 none task.files.length task.files ⟨0, 0, 0, 0, []⟩).1.progress⟩
  dsimp only
  rw [hc2]
  rw [if_neg (by simp)]
  simp only [MergeOutcome.mk.injEq]
  rw [reassemble_none, hctemp]
  simp only [List.nil_append]

lemma phase1_some_snd (ev : CancelEvent) (n : Nat) (files : List PImage) :
    ∀ st : Phase1State, st.t ≤ ev.setAt →
    ((phase1 (some ev) n files st).2 = false
      ↔ st.t + files.length ≤ ev.setAt) := by
  induction files with
  | nil =>
    intro st hst
    simp [phase1]
    omega
  | cons img rest ih =>
    intro st hst
    simp only [phase1]
    by_cases hc : ev.setAt ≤ st.t
    · rw [if_pos (by simp [isSet, hc])]
      simp only [List.length_cons]
      constructor
      · intro h
        exact absurd h (by simp)
      · intro h
        omega
    · rw [if_neg (by simp [isSet]; omega)]
      rw [ih _ (by simp only []; omega)]
      simp only [List.length_cons]
      omega

lemma phase1_t_adv (cancel : Option CancelEvent) (n : Nat)
    (files : List PImage) :
    ∀ st : Phase1State, (phase1 cancel n files st).2 = false →
    (phase1 cancel n files st).1.t = st.t + files.length := by
  induction files with
  | nil => intro st h; simp [phase1]
  | cons img rest ih =>
    intro st h
    simp only [phase1] at h ⊢
    by_cases hc : isSet cancel st.t = true
    · rw [if_pos hc] at h
      exact absurd h (by simp)
    · rw [if_neg hc] at h ⊢
      rw [ih _ h]
      simp only [List.length_cons]
      omega

lemma phase2_some_snd (ev : CancelEvent) (n maxW : Nat)
    (files : List PImage) :
    ∀ st : Phase2State, st.t ≤ ev.setAt →
    ((phase2 (some ev) n maxW files st).2 = false
      ↔ st.t + files.length ≤ ev.setAt) := by
  induction files with
  | nil =>
    intro st hst
    simp [phase2]
    omega
  | cons img rest ih =>
    intro st hst
    simp only [phase2]
    by_cases hc : ev.setAt ≤ st.t
    · rw [if_pos (by simp [isSet, hc])]
      simp only [List.length_cons]
      constructor
      · intro h
        exact absurd h (by simp)
      · intro h
        omega
    · rw [if_neg (by simp [isSet]; omega)]
      rw [ih _ (by simp only []; omega)]
      simp only [List.length_cons]
      omega

lemma chunkPhase_some_snd (ev : CancelEvent) (n : Nat)
    (files : List PImage) :
    ∀ st : ChunkPhaseState, st.t ≤ ev.setAt →
    ((chunkPhase (some ev) n files st).2 = false
      ↔ st.t + files.length ≤ ev.setAt) := by
  induction files with
  | nil =>
    intro st hst
    simp [chunkPhase]
    omega
  | cons img rest ih =>
    intro st hst
    simp only [chunkPhase]
    by_cases hc : ev.setAt ≤ st.t
    · rw [if_pos (by simp [isSet, hc])]
      simp only [List.length_cons]
      constructor
      · intro h
        exact absurd h (by simp)
      · intro h
        omega
    · rw [if_neg (by simp [isSet]; omega)]
      rw [ih _ (by simp only []; omega)]
      simp only [List.length_cons]
      omega

/-- C3 amended: when the cancellation flag becomes set at any of the
per-file checkpoints — which are all the checkpoints the in-memory mode
has before its single write, and the descriptor-pass and chunking-pass
checkpoints of streaming mode — the merge returns without writing any
output.  (Cancellation observed only during streaming reassembly still
writes the partially assembled composite: `c3_counterexample`.) -/
theorem c3_cancel_before_write (task : MTask) (ev : CancelEvent)
    (threshold_mb : Rat)
    (hcancel : ev.setAt < 2 * task.files.length) :
    (merge_images_advanced task (some ev) threshold_mb).written = none := by
  unfold merge_images_advanced
  by_cases hempty : task.files.isEmpty = true
  · rw [if_pos hempty]
  · rw [if_neg hempty]
    dsimp only
    by_cases h1 : (phase1 (some ev) task.files.length task.files
        ⟨0, 0, 0, 0, []⟩).2 = true
    · rw [if_pos h1]
    · rw [if_neg h1]
      have h1f : (phase1 (some ev) task.files.length task.files
          ⟨0, 0, 0, 0, []⟩).2 = false := by
        simpa using h1
      have h1' : (0 : Nat) + task.files.length ≤ ev.setAt :=
        (phase1_some_snd ev task.files.length task.files ⟨0, 0, 0, 0, []⟩
          (Nat.zero_le _)).mp h1f
      have ht : (phase1 (some ev) task.files.length task.files
          ⟨0, 0, 0, 0, []⟩).1.t = 0 + task.files.length :=
        phase1_t_adv (some ev) task.files.length task.files
          ⟨0, 0, 0, 0, []⟩ h1f
      by_cases hpl : (phase1 (some ev) task.files.length task.files
            ⟨0, 0, 0, 0, []⟩).1.max_width
          * (phase1 (some ev) task.files.length task.files
            ⟨0, 0, 0, 0, []⟩).1.total_height > PIL_MAX_PIXELS
      · rw [if_pos hpl]
      · rw [if_neg hpl]
        by_cases hstr : (((phase1 (some ev) task.files.length task.files
              ⟨0, 0, 0, 0, []⟩).1.max_width
            * (phase1 (some ev) task.files.length task.files
              ⟨0, 0, 0, 0, []⟩).1.total_height * 4 : Nat) : Rat)
            / (1024 * 1024) > threshold_mb
        · rw [if_pos hstr]
          unfold merge_images_streaming
          dsimp only
          by_cases hc2 : (chunkPhase (some ev) task.files.length task.files
              ⟨[], 0, (phase1 (some ev) task.files.length task.files
                ⟨0, 0, 0, 0, []⟩).1.t, 0,
               (phase1 (some ev) task.files.length task.files
                ⟨0, 0, 0, 0, []⟩).1.progress⟩).2 = true
          · rw [if_pos hc2]
          · exfalso
            have hle : (phase1 (some ev) task.files.length task.files
                ⟨0, 0, 0, 0, []⟩).1.t ≤ ev.setAt := by
              rw [ht]
              omega
            have h2 := (chunkPhase_some_snd ev task.files.length task.files
              ⟨[], 0, (phase1 (some ev) task.files.length task.files
                ⟨0, 0, 0, 0, []⟩).1.t, 0,
               (phase1 (some ev) task.files.length task.files
                ⟨0, 0, 0, 0, []⟩).1.progress⟩ hle).mp (by simpa using hc2)
            have h2' : (phase1 (some ev) task.files.length task.files
                ⟨0, 0, 0, 0, []⟩).1.t + task.files.length ≤ ev.setAt := h2
            rw [ht] at h2'
            omega
        · rw [if_neg hstr]
          by_cases hc2 : (phase2 (some ev) task.files.length
              (phase1 (some ev) task.files.length task.files
                ⟨0, 0, 0, 0, []⟩).1.max_width task.files
              ⟨fun _ _ => bgPx task.save_as_png, 0,
               (phase1 (some ev) task.files.length task.files
                ⟨0, 0, 0, 0, []⟩).1.t, 0,
               (phase1 (some ev) task.files.length task.files
                ⟨0, 0, 0, 0, []⟩).1.progress⟩).2 = true
          · rw [if_pos hc2]
          · exfalso
            have hle : (phase1 (some ev) task.files.length task.files
                ⟨0, 0, 0, 0, []⟩).1.t ≤ ev.setAt := by
              rw [ht]
              omega
            have h2 := (phase2_some_snd ev task.files.length
              (phase1 (some ev) task.files.length task.files
                ⟨0, 0, 0, 0, []⟩).1.max_width task.files
              ⟨fun _ _ => bgPx task.save_as_png, 0,
               (phase1 (some ev) task.files.length task.files
                ⟨0, 0, 0, 0, []⟩).1.t, 0,
               (phase1 (some ev) task.files.length task.files
                ⟨0, 0, 0, 0, []⟩).1.progress⟩ hle).mp (by simpa using hc2)
            have h2' : (phase1 (some ev) task.files.length task.files
                ⟨0, 0, 0, 0, []⟩).1.t + task.files.length ≤ ev.setAt := h2
            rw [ht] at h2'
            omega

/-- A one-file merge task big enough to trip the streaming threshold:
262144001 × 1 pixels give an estimated footprint just above 1000 MiB. -/
def bigTask : MTask := ⟨[⟨262144001, 1, fun _ _ => 0⟩], false⟩

/-- Counterexample to C3 as stated: merging `bigTask` with the
cancellation flag becoming set at query 2 — the first reassembly
checkpoint, after the descriptor query and the chunk-loop query — takes
the streaming path, observes the cancellation inside the reassembly
loop, merely `break`s, and still writes an output composite. -/
theorem c3_counterexample :
    (merge_images_advanced bigTask (some ⟨2⟩) 1000).written.isSome = true := by
  unfold merge_images_advanced
  rw [if_neg (by simp [bigTask])]
  dsimp only
  rw [if_neg (by decide)]
  rw [if_neg (by decide)]
  rw [if_pos ?hstr]
  case hstr =>
    have hmw : (phase1 (some ⟨2⟩) bigTask.files.length bigTask.files
        ⟨0, 0, 0, 0, []⟩).1.max_width = 262144001 := rfl
    have hth : (phase1 (some ⟨2⟩) bigTask.files.length bigTask.files
        ⟨0, 0, 0, 0, []⟩).1.total_height = 1 := rfl
    rw [hmw, hth]
    norm_num
  unfold merge_images_streaming
  dsimp only
  rw [if_neg (by decide)]
  rfl

/-- Witness for C3 (amended): a merge of five files cancelled after the
second file (the flag is set from query 2 on, so it is observed at the
checkpoint before the third file) leaves no output written. -/
theorem c3_cancel_before_write_witness :
    (⟨2⟩ : CancelEvent).setAt
        < 2 * (MTask.mk [⟨10, 10, fun _ _ => 0⟩, ⟨10, 10, fun _ _ => 0⟩,
            ⟨10, 10, fun _ _ => 0⟩, ⟨10, 10, fun _ _ => 0⟩,
            ⟨10, 10, fun _ _ => 0⟩] false).files.length ∧
    (merge_images_advanced
        ⟨[⟨10, 10, fun _ _ => 0⟩, ⟨10, 10, fun _ _ => 0⟩,
          ⟨10, 10, fun _ _ => 0⟩, ⟨10, 10, fun _ _ => 0⟩,
          ⟨10, 10, fun _ _ => 0⟩], false⟩
        (some ⟨2⟩) 1000).written = none :=
  ⟨by decide,
   c3_cancel_before_write
     ⟨[⟨10, 10, fun _ _ => 0⟩, ⟨10, 10, fun _ _ => 0⟩,
       ⟨10, 10, fun _ _ => 0⟩, ⟨10, 10, fun _ _ => 0⟩,
       ⟨10, 10, fun _ _ => 0⟩], false⟩ ⟨2⟩ 1000 (by decide)⟩

/-- C2: for the same input images, a merge whose streaming threshold is
forced below the estimated footprint (routing through the chunk-and-
spill path) produces a composite with the same dimensions and
byte-for-byte the same pixel content as the in-memory path (threshold
at or above the footprint), mode fidelity aside. -/
theorem c2_streaming_matches_inmemory (task : MTask) (thLow thHigh : Rat)
    (hne : task.files ≠ [])
    (hpl : ¬ maxWidth task.files * heightSum task.files > PIL_MAX_PIXELS)
    (hlow : ((maxWidth task.files * heightSum task.files * 4 : Nat) : Rat)
        / (1024 * 1024) > thLow)
    (hhigh : ¬ (((maxWidth task.files * heightSum task.files * 4 : Nat) : Rat)
        / (1024 * 1024) > thHigh)) :
    ∃ cS cI,
      (merge_images_advanced task none thLow).written
        = some (maxWidth task.files, heightSum task.files, cS) ∧
      (merge_images_advanced task none thHigh).written
        = some (maxWidth task.files, heightSum task.files, cI) ∧
      ∀ x y, cS x y = cI x y := by
  refine ⟨_, _, merge_none_streaming_written task thLow hne hpl hlow,
    merge_none_inmemory_written task thHigh hne hpl hhigh, ?_⟩
  intro x y
  exact pasteChunks_chunksAll (maxWidth task.files) task.files 0 _ x y

/-- Two small files for the C2 witness; the first is 1500 rows tall, so
the streaming path spills it as two chunks (1000 + 500 rows). -/
def c2Files : List PImage :=
  [⟨2, 1500, fun x y => 10 + x + y⟩, ⟨3, 800, fun x y => 20 + x * y⟩]

/-- Witness for C2: with the threshold forced to 0 the merge of
`c2Files` takes the streaming path, and its composite agrees pixel for
pixel with the in-memory merge at the default threshold 1000. -/
theorem c2_streaming_matches_inmemory_witness :
    ((maxWidth c2Files * heightSum c2Files * 4 : Nat) : Rat)
        / (1024 * 1024) > 0 ∧
    (∃ cS cI,
      (merge_images_advanced ⟨c2Files, false⟩ none 0).written
        = some (maxWidth c2Files, heightSum c2Files, cS) ∧
      (merge_images_advanced ⟨c2Files, false⟩ none 1000).written
        = some (maxWidth c2Files, heightSum c2Files, cI) ∧
      ∀ x y, cS x y = cI x y) := by
  constructor
  · show ((3 * 2300 * 4 : Nat) : Rat) / (1024 * 1024) > 0
    norm_num
  · exact c2_streaming_matches_inmemory ⟨c2Files, false⟩ 0 1000
      (by simp [c2Files])
      (by decide)
      (by show ((3 * 2300 * 4 : Nat) : Rat) / (1024 * 1024) > 0; norm_num)
      (by show ¬ (((3 * 2300 * 4 : Nat) : Rat) / (1024 * 1024) > 1000); norm_num)

/-- C5: with no platform constraint, the in-memory merge produces a
composite whose width is the maximum input width and whose height is the
sum of input heights, with each source image reproduced pixel for pixel
at horizontal offset `(maxWidth - width) / 2` and at the running
vertical offset (the sum of the heights of all preceding images). -/
theorem c5_inmemory_geometry (task : MTask) (threshold_mb : Rat)
    (hne : task.files ≠ [])
    (hpl : ¬ maxWidth task.files * heightSum task.files > PIL_MAX_PIXELS)
    (hth : ¬ (((maxWidth task.files * heightSum task.files * 4 : Nat) : Rat)
        / (1024 * 1024) > threshold_mb)) :
    ∃ c, (merge_images_advanced task none threshold_mb).written
        = some (maxWidth task.files, heightSum task.files, c) ∧
      ∀ pre f post, task.files = pre ++ f :: post →
        ∀ dx dy, dx < f.width → dy < f.height →
          c ((maxWidth task.files - f.width) / 2 + dx) (heightSum pre + dy)
            = f.pix dx dy := by
  refine ⟨_, merge_none_inmemory_written task threshold_mb hne hpl hth, ?_⟩
  intro pre f post hsplit dx dy hdx hdy
  rw [hsplit]
  have h := pasteImages_pixel (maxWidth (pre ++ f :: post)) pre f post
    (fun _ _ => bgPx task.save_as_png) 0 dx dy hdx hdy
  rwa [Nat.zero_add] at h

/-- The three-image example scenario of C5 (heights 1000, 1500, 800;
widths 600, 800, 600). -/
def c5Files : List PImage :=
  [⟨600, 1000, fun x y => 1 + x + y⟩, ⟨800, 1500, fun x y => 2 + x * y⟩,
   ⟨600, 800, fun x y => 3 + x + y⟩]

/-- Witness for C5: the example yields a composite of width 800 and
height 3300, with the three images reproduced at x-offsets 100, 0, 100
and y-offsets 0, 1000, 2500. -/
theorem c5_inmemory_geometry_witness :
    maxWidth c5Files = 800 ∧ heightSum c5Files = 3300 ∧
    (800 - 600) / 2 = 100 ∧ (800 - 800) / 2 = 0 ∧
    heightSum ([] : List PImage) = 0 ∧
    heightSum [⟨600, 1000, fun x y => 1 + x + y⟩] = 1000 ∧
    heightSum [⟨600, 1000, fun x y => 1 + x + y⟩,
      ⟨800, 1500, fun x y => 2 + x * y⟩] = 2500 ∧
    (∃ c, (merge_images_advanced ⟨c5Files, false⟩ none 1000).written
        = some (maxWidth c5Files, heightSum c5Files, c) ∧
      ∀ pre f post, c5Files = pre ++ f :: post →
        ∀ dx dy, dx < f.width → dy < f.height →
          c ((maxWidth c5Files - f.width) / 2 + dx) (heightSum pre + dy)
            = f.pix dx dy) := by
  refine ⟨by decide, by decide, by decide, by decide, by decide, by decide,
    by decide, ?_⟩
  exact c5_inmemory_geometry ⟨c5Files, false⟩ 1000
    (by simp [c5Files])
    (by decide)
    (by show ¬ (((800 * 3300 * 4 : Nat) : Rat) / (1024 * 1024) > 1000); norm_num)
